import Mathlib

/-
Verification development for the kids-video evaluation pipeline.
Text is modelled as List Char; Python floats are modelled as exact
rationals (ℚ); image files are modelled as Option (List ℕ): some px is a
readable frame whose grayscale pixel values are px, none is an unreadable
or corrupt frame.  All definitions are shallow embeddings of the
corresponding Python functions in src/heuristics.py and
src/analysis_agent.py.
-/

/-- Whitespace set used by str.split and str.strip (ASCII fragment of
Python whitespace). -/
def isPyWs (c : Char) : Bool :=
  c = ' ' || c = '\t' || c = '\n' || c = '\r' || c = '\x0b' || c = '\x0c'

/-- Maximal runs of characters satisfying p, with the current
partially-built run carried reversed in acc.  Characters failing p are
separators and are dropped. -/
def runsOfAux (p : Char → Bool) : List Char → List Char → List (List Char)
  | [], acc => if acc.isEmpty then [] else [acc.reverse]
  | c :: cs, acc =>
    if p c then runsOfAux p cs (c :: acc)
    else if acc.isEmpty then runsOfAux p cs []
    else acc.reverse :: runsOfAux p cs []

/-- Maximal runs of characters satisfying p. -/
def runsOf (p : Char → Bool) (s : List Char) : List (List Char) :=
  runsOfAux p s []

/-- Embeds Python str.split() with no arguments: maximal runs of
non-whitespace characters. -/
def splitWords (s : List Char) : List (List Char) :=
  runsOf (fun c => !(isPyWs c)) s

/-- A Python regex word character (ASCII fragment of \w). -/
def isWordChar (c : Char) : Bool :=
  c.isAlphanum || c = '_'

/-- Embeds re.findall of word-character runs on a text: the token list
used by word_repetition_ratio and the word_count of aggregate_heuristics. -/
def findallWords (t : List Char) : List (List Char) :=
  runsOf isWordChar t

/-- Embeds heuristics.word_repetition_ratio: tokens of the lowercased
text; 0 when there are none, else max(0, 1 - unique/total). -/
def word_repetition_ratio_val (text : List Char) : ℚ :=
  let words := findallWords (text.map Char.toLower)
  if words.isEmpty then 0
  else max 0 (1 - ((words.dedup.length : ℚ) / (words.length : ℚ)))

/-- Embeds heuristics.speaking_speed. -/
def speaking_speed (word_count : ℕ) (duration : ℚ) : ℚ :=
  if duration ≤ 0 then 0 else (word_count : ℚ) / duration

/-- Embeds heuristics.transcript_density. -/
def transcript_density (word_count : ℕ) (duration : ℚ) : ℚ :=
  if duration ≤ 0 then 0 else (word_count : ℚ) / duration

/-- A frame image file: some px when Image.open succeeds and the
grayscale conversion has pixel data px, none when opening raises. -/
abbrev Frame := Option (List ℕ)

/-- The mean-luminance list built by the loop in compute_visual_variance:
unreadable frames and frames with no pixel data are skipped. -/
def frameAverages (frame_paths : List Frame) : List ℚ :=
  frame_paths.filterMap (fun f =>
    match f with
    | none => none
    | some px => if px.isEmpty then none else some ((px.sum : ℚ) / (px.length : ℚ)))

/-- Absolute differences of consecutive elements, as in the diffs list
comprehension of compute_visual_variance. -/
def absDiffs : List ℚ → List ℚ
  | a :: b :: rest => |b - a| :: absDiffs (b :: rest)
  | _ => []

/-- Embeds heuristics.compute_visual_variance. -/
def compute_visual_variance (frame_paths : List Frame) : ℚ :=
  if frame_paths.length < 2 then 0
  else
    let averages := frameAverages frame_paths
    if averages.length < 2 then 0
    else (absDiffs averages).sum / ((absDiffs averages).length : ℚ)

/-- Round a rational to the nearest integer, ties to even: the rounding
of Python round() on exact decimal values (binary floating-point
representation artifacts are out of scope of this model). -/
def roundHalfEven (q : ℚ) : ℤ :=
  let f := ⌊q⌋
  let r := q - (f : ℚ)
  if r < 1/2 then f
  else if 1/2 < r then f + 1
  else if f % 2 = 0 then f else f + 1

/-- Embeds Python round(x, nd). -/
def roundTo (nd : ℕ) (q : ℚ) : ℚ :=
  ((roundHalfEven (q * (10 : ℚ) ^ nd) : ℚ)) / (10 : ℚ) ^ nd

/-- The fixed-shape mapping returned by heuristics.aggregate_heuristics.
The repetition_ratio key of the Python dict is the field
repetition_ratio_val here. -/
structure HeuristicBundle where
  word_count : ℕ
  duration_seconds : ℚ
  repetition_ratio_val : ℚ
  speaking_speed_wps : ℚ
  transcript_density_wps : ℚ
  visual_variance : ℚ

/-- Embeds heuristics.aggregate_heuristics. -/
def aggregate_heuristics (transcript : List Char) (duration : ℚ)
    (frame_paths : List Frame) : HeuristicBundle :=
  HeuristicBundle.mk
    (findallWords transcript).length
    duration
    (roundTo 4 (word_repetition_ratio_val transcript))
    (roundTo 2 (speaking_speed (findallWords transcript).length duration))
    (roundTo 2 (transcript_density (findallWords transcript).length duration))
    (roundTo 2 (compute_visual_variance frame_paths))

/-- Fixed-size windows of a list, fuel-driven: the slice loop
[words[i : i + chunk_words] for i in range(0, len(words), chunk_words)].
Fuel at least the list length suffices when 0 < w. -/
def chunkListF (w : ℕ) : ℕ → List (List Char) → List (List (List Char))
  | 0, _ => []
  | _ + 1, [] => []
  | fuel + 1, x :: xs => ((x :: xs).take w) :: chunkListF w fuel ((x :: xs).drop w)

/-- Embeds " ".join. -/
def joinSpace : List (List Char) → List Char
  | [] => []
  | [w] => w
  | w :: ws => w ++ ' ' :: joinSpace ws

/-- Embeds "\n".join. -/
def joinNl : List (List Char) → List Char
  | [] => []
  | [w] => w
  | w :: ws => w ++ '\n' :: joinNl ws

/-- Embeds analysis_agent.chunk_transcript (the Python default for
chunk_words is 180). -/
def chunk_transcript (transcript : List Char) (chunk_words : ℕ) : List (List Char) :=
  let words := splitWords transcript
  if words.isEmpty then []
  else (chunkListF chunk_words words.length words).map joinSpace

/-- Embeds analysis_agent.build_chunk_notes: one line per chunk with its
1-based index, approximate word count, and a 200-character preview with
newlines flattened to spaces. -/
def build_chunk_notes (chunks : List (List Char)) : List (List Char) :=
  chunks.enum.map (fun ic =>
    ("Chunk ").toList ++ Nat.toDigits 10 (ic.1 + 1)
      ++ (" (~").toList ++ Nat.toDigits 10 (splitWords ic.2).length
      ++ (" words): ").toList
      ++ (ic.2.take 200).map (fun c => if c = '\n' then ' ' else c))

/-- Embeds the rolling-summary expression of analysis_agent.run_analysis:
"\n".join(chunk_notes[-4:]) if chunk_notes else "No transcript available". -/
def rolling_summary (chunk_notes : List (List Char)) : List Char :=
  if chunk_notes.isEmpty then ("No transcript available").toList
  else joinNl (chunk_notes.drop (chunk_notes.length - 4))

/-- JSON values as decoded by json.loads.  Numbers keep their source
lexeme: no claim inspects numeric magnitudes. -/
inductive JValue where
  | null : JValue
  | bool : Bool → JValue
  | num : List Char → JValue
  | str : List Char → JValue
  | arr : List JValue → JValue
  | obj : List (List Char × JValue) → JValue

/-- JSON insignificant whitespace. -/
def isJsonWs (c : Char) : Bool :=
  c = ' ' || c = '\t' || c = '\n' || c = '\r'

/-- Drop insignificant whitespace. -/
def skipWs (s : List Char) : List Char :=
  s.dropWhile isJsonWs

/-- Value of a hexadecimal digit. -/
def hexVal (c : Char) : Option ℕ :=
  if c.isDigit then some (c.toNat - 48)
  else if 97 ≤ c.toNat && c.toNat ≤ 102 then some (c.toNat - 87)
  else if 65 ≤ c.toNat && c.toNat ≤ 70 then some (c.toNat - 55)
  else none

/-- Single-character JSON string escapes. -/
def escChar (e : Char) : Option Char :=
  if e = '"' then some '"'
  else if e = '\\' then some '\\'
  else if e = '/' then some '/'
  else if e = 'b' then some (Char.ofNat 8)
  else if e = 'f' then some (Char.ofNat 12)
  else if e = 'n' then some '\n'
  else if e = 'r' then some '\r'
  else if e = 't' then some '\t'
  else none

/-- Body of a JSON string after the opening quote: decoded characters
plus the remaining input after the closing quote.  Strict mode: raw
control characters are rejected, as in json.loads. -/
def parseStrBody : List Char → Option (List Char × List Char)
  | [] => none
  | c :: rest =>
    if c = '"' then some ([], rest)
    else if c = '\\' then
      match rest with
      | [] => none
      | e :: rest2 =>
        if e = 'u' then
          match rest2 with
          | h1 :: h2 :: h3 :: h4 :: rest3 =>
            match hexVal h1, hexVal h2, hexVal h3, hexVal h4 with
            | some a, some b, some c2, some d =>
              match parseStrBody rest3 with
              | some (tail, rem) =>
                some (Char.ofNat (((a * 16 + b) * 16 + c2) * 16 + d) :: tail, rem)
              | none => none
            | _, _, _, _ => none
          | _ => none
        else
          match escChar e with
          | some ec =>
            match parseStrBody rest2 with
            | some (tail, rem) => some (ec :: tail, rem)
            | none => none
          | none => none
    else if c.toNat < 32 then none
    else
      match parseStrBody rest with
      | some (tail, rem) => some (c :: tail, rem)
      | none => none

/-- One or more decimal digits. -/
def digits1 (s : List Char) : Option (List Char × List Char) :=
  let d := s.takeWhile Char.isDigit
  if d.isEmpty then none else some (d, s.dropWhile Char.isDigit)

/-- Optional fraction part of a JSON number. -/
def parseFrac : List Char → Option (List Char × List Char)
  | '.' :: r =>
    match digits1 r with
    | some (d, rem) => some ('.' :: d, rem)
    | none => none
  | s => some ([], s)

/-- Optional exponent part of a JSON number. -/
def parseExp : List Char → Option (List Char × List Char)
  | [] => some ([], [])
  | e :: r =>
    if e = 'e' || e = 'E' then
      match r with
      | '+' :: rr =>
        match digits1 rr with
        | some (d, rem) => some (e :: '+' :: d, rem)
        | none => none
      | '-' :: rr =>
        match digits1 rr with
        | some (d, rem) => some (e :: '-' :: d, rem)
        | none => none
      | rr =>
        match digits1 rr with
        | some (d, rem) => some (e :: d, rem)
        | none => none
    else some ([], e :: r)

/-- A JSON number lexeme: optional minus, integer part with no leading
zero, optional fraction, optional exponent. -/
def parseNum (s : List Char) : Option (List Char × List Char) :=
  let sgn : List Char × List Char :=
    match s with
    | '-' :: r => (['-'], r)
    | _ => ([], s)
  match sgn.2 with
  | [] => none
  | c :: r =>
    let intDone : Option (List Char × List Char) :=
      if c = '0' then some (sgn.1 ++ ['0'], r)
      else if c.isDigit then
        some (sgn.1 ++ c :: r.takeWhile Char.isDigit, r.dropWhile Char.isDigit)
      else none
    match intDone with
    | none => none
    | some (ip, r2) =>
      match parseFrac r2 with
      | none => none
      | some (fp, r3) =>
        match parseExp r3 with
        | none => none
        | some (ep, r4) => some (ip ++ fp ++ ep, r4)

/-- Parser mode: a full value, the member list of an object after the
opening brace, or the element list of an array after the opening
bracket. -/
inductive PMode where
  | value : PMode
  | members : PMode
  | elems : PMode

/-- Parser output for each mode. -/
inductive POut where
  | val : JValue → POut
  | fields : List (List Char × JValue) → POut
  | vals : List JValue → POut

/-- The recursive core of json.loads, structurally recursive on fuel.
Three fuel units per input character always suffice. -/
def parseF : ℕ → PMode → List Char → Option (POut × List Char)
  | 0, _, _ => none
  | fuel + 1, PMode.value, s =>
    match skipWs s with
    | [] => none
    | c :: rest =>
      if c = '\x7b' then
        match skipWs rest with
        | '\x7d' :: rem => some (POut.val (JValue.obj []), rem)
        | s2 =>
          match parseF fuel PMode.members s2 with
          | some (POut.fields fs, rem) => some (POut.val (JValue.obj fs), rem)
          | _ => none
      else if c = '[' then
        match skipWs rest with
        | ']' :: rem => some (POut.val (JValue.arr []), rem)
        | s2 =>
          match parseF fuel PMode.elems s2 with
          | some (POut.vals vs, rem) => some (POut.val (JValue.arr vs), rem)
          | _ => none
      else if c = '"' then
        match parseStrBody rest with
        | some (str, rem) => some (POut.val (JValue.str str), rem)
        | none => none
      else if c = 't' then
        match rest with
        | 'r' :: 'u' :: 'e' :: rem => some (POut.val (JValue.bool true), rem)
        | _ => none
      else if c = 'f' then
        match rest with
        | 'a' :: 'l' :: 's' :: 'e' :: rem => some (POut.val (JValue.bool false), rem)
        | _ => none
      else if c = 'n' then
        match rest with
        | 'u' :: 'l' :: 'l' :: rem => some (POut.val JValue.null, rem)
        | _ => none
      else
        match parseNum (c :: rest) with
        | some (lex, rem) => some (POut.val (JValue.num lex), rem)
        | none => none
  | fuel + 1, PMode.members, s =>
    match s with
    | '"' :: rest =>
      match parseStrBody rest with
      | some (key, rem1) =>
        match skipWs rem1 with
        | ':' :: rem2 =>
          match parseF fuel PMode.value rem2 with
          | some (POut.val v, rem3) =>
            match skipWs rem3 with
            | ',' :: rem4 =>
              match parseF fuel PMode.members (skipWs rem4) with
              | some (POut.fields fs, rem5) => some (POut.fields ((key, v) :: fs), rem5)
              | _ => none
            | '\x7d' :: rem4 => some (POut.fields [(key, v)], rem4)
            | _ => none
          | _ => none
        | _ => none
      | none => none
    | _ => none
  | fuel + 1, PMode.elems, s =>
    match parseF fuel PMode.value s with
    | some (POut.val v, rem1) =>
      match skipWs rem1 with
      | ',' :: rem2 =>
        match parseF fuel PMode.elems rem2 with
        | some (POut.vals vs, rem3) => some (POut.vals (v :: vs), rem3)
        | _ => none
      | ']' :: rem2 => some (POut.vals [v], rem2)
      | _ => none
    | _ => none

/-- One JSON value and the remaining input. -/
def parseValue (fuel : ℕ) (s : List Char) : Option (JValue × List Char) :=
  match parseF fuel PMode.value s with
  | some (POut.val v, rem) => some (v, rem)
  | _ => none

/-- Embeds json.loads: one JSON value spanning the whole input up to
insignificant whitespace; anything further is extra data and fails. -/
def json_loads (s : List Char) : Option JValue :=
  match parseValue (3 * s.length + 3) s with
  | some (v, rem) => if (skipWs rem).isEmpty then some v else none
  | none => none

/-- The two failure kinds of analysis_agent.extract_json: the explicit
ValueError when re.search finds no object, and the json.JSONDecodeError
propagated out of json.loads. -/
inductive ParseError where
  | notFound : ParseError
  | decodeError : ParseError
deriving DecidableEq

/-- Index of the last occurrence of c in s. -/
def lastIdxOf (c : Char) (s : List Char) : Option ℕ :=
  match s.reverse.findIdx? (fun d => d = c) with
  | some k => some (s.length - 1 - k)
  | none => none

/-- Embeds re.search of a greedy brace-to-brace pattern with DOTALL on
the text: the substring from the first opening brace to the last closing
brace, when the first opening brace precedes the last closing brace. -/
def extract_region (s : List Char) : Option (List Char) :=
  match s.findIdx? (fun d => d = '\x7b'), lastIdxOf '\x7d' s with
  | some i, some j => if i < j then some ((s.drop i).take (j - i + 1)) else none
  | _, _ => none

/-- Decoding step of extract_json: json.loads on the matched substring,
a decode failure surfacing as its own error kind. -/
def decodeResult (sub : List Char) : Except ParseError JValue :=
  match json_loads sub with
  | some v => Except.ok v
  | none => Except.error ParseError.decodeError

/-- Embeds analysis_agent.extract_json. -/
def extract_json (content : List Char) : Except ParseError JValue :=
  match extract_region content with
  | none => Except.error ParseError.notFound
  | some sub => decodeResult sub

/-- Embeds Python str.strip() with no arguments. -/
def pyStrip (s : List Char) : List Char :=
  ((s.dropWhile isPyWs).reverse.dropWhile isPyWs).reverse

/-- Embeds the f-string conversion of a float with format .1f: one
decimal digit, ties to even (binary floating-point artifacts out of
scope; a negative zero result is rendered without sign here). -/
def fmtFixed1 (q : ℚ) : List Char :=
  let n := roundHalfEven (q * 10)
  (if n < 0 then ['-'] else [])
    ++ Nat.toDigits 10 (n.natAbs / 10) ++ '.' :: Nat.toDigits 10 (n.natAbs % 10)

/-- Deterministic decimal-free rendering of a rational, standing in for
the serialization of a Python number (shortest-repr float formatting is
out of scope of this model). -/
def renderQ (q : ℚ) : List Char :=
  (if q < 0 then ['-'] else [])
    ++ Nat.toDigits 10 q.num.natAbs
    ++ (if q.den = 1 then [] else '/' :: Nat.toDigits 10 q.den)

/-- Embeds json.dumps on the heuristics dict: keys in insertion order,
": " and ", " separators. -/
def dumps_heuristics (h : HeuristicBundle) : List Char :=
  ("\x7b\"word_count\": ").toList ++ Nat.toDigits 10 h.word_count
    ++ (", \"duration_seconds\": ").toList ++ renderQ h.duration_seconds
    ++ (", \"repetition_ratio\": ").toList ++ renderQ h.repetition_ratio_val
    ++ (", \"speaking_speed_wps\": ").toList ++ renderQ h.speaking_speed_wps
    ++ (", \"transcript_density_wps\": ").toList ++ renderQ h.transcript_density_wps
    ++ (", \"visual_variance\": ").toList ++ renderQ h.visual_variance
    ++ ['\x7d']

/-- Join with ", ", as inside a Python list repr. -/
def joinCommaSp : List (List Char) → List Char
  | [] => []
  | [w] => w
  | w :: ws => w ++ ',' :: ' ' :: joinCommaSp ws

/-- Embeds the f-string rendering of a Python list of strings (each
string free of quote characters, so repr uses plain single quotes). -/
def pyReprList (xs : List (List Char)) : List Char :=
  '[' :: joinCommaSp (xs.map (fun s => '\x27' :: s ++ ['\x27'])) ++ [']']

/-- The rubric constant BRAIN_ROT_SIGNALS of src/rubric.py. -/
def BRAIN_ROT_SIGNALS : List (List Char) :=
  [("Repetition").toList,
   ("Fast cuts or overstimulation").toList,
   ("No clear learning goal").toList]

/-- The rubric constant LEARNING_VALUE_SIGNALS of src/rubric.py. -/
def LEARNING_VALUE_SIGNALS : List (List Char) :=
  [("Vocabulary building").toList,
   ("Concept understanding").toList,
   ("Curiosity sparking moments").toList,
   ("Social or emotional cues").toList]

/-- The rubric constant TWENTY_FIRST_CENTURY of src/rubric.py. -/
def TWENTY_FIRST_CENTURY : List (List Char) :=
  [("Encourages thinking").toList,
   ("Active engagement").toList,
   ("Contextual learning").toList]

/-- The rubric constant AI_SLOP_SIGNALS of src/rubric.py. -/
def AI_SLOP_SIGNALS : List (List Char) :=
  [("Generic phrasing").toList,
   ("Template storytelling").toList,
   ("Lack of cultural specificity").toList]

/-- The behavioral-instructions literal of run_analysis, which the
assembly uses through str.strip(). -/
def instructions : List Char :=
  ("\nYou are a careful reviewer of children\x27s educational content.\nUse transcript fragments, visual frame descriptions, and heuristics together.\nThis is an advisory tool for parents—avoid claiming certainty or diagnostics.\nMention uncertainty explicitly, especially where single-frame visuals may mislead.\nBase judgments strictly on the provided rubric signals.\nRespond ONLY with JSON matching the requested schema without extra text or markdown and with Properly Capitalised Keys.\n").toList

/-- The visual_notes loop of run_analysis: one "Frame N: ..." line per
frame description, positionally labeled, each ending in a newline. -/
def visual_notes_of (frame_descriptions : List (List Char)) : List (List Char) :=
  frame_descriptions.enum.map (fun ifr =>
    ("Frame ").toList ++ Nat.toDigits 10 (ifr.1 + 1) ++ (": ").toList
      ++ pyStrip ifr.2 ++ ['\n'])

/-- The inputs of the prompt-assembly step of run_analysis. -/
structure PromptInputs where
  language_hint : List Char
  duration : ℚ
  heuristics : HeuristicBundle
  frame_count : ℕ
  rolling : List Char
  chunk_notes : List (List Char)
  frame_descriptions : List (List Char)
  brain_rot : List (List Char)
  learning : List (List Char)
  twenty_first : List (List Char)
  ai_slop : List (List Char)

/-- Embeds the prompt assembly of run_analysis: the newline join of
content_lines in their fixed order. -/
def assemble_prompt (inp : PromptInputs) : List Char :=
  let visual_notes := visual_notes_of inp.frame_descriptions
  let visual_summary :=
    if visual_notes.isEmpty then ("No visual descriptions available.").toList
    else joinNl visual_notes
  joinNl
    ([("Language hint: ").toList
        ++ (if inp.language_hint.isEmpty then ("unspecified").toList else inp.language_hint),
      ("Duration (seconds): ").toList ++ fmtFixed1 inp.duration,
      ("Heuristics: ").toList ++ dumps_heuristics inp.heuristics,
      ("Frames sampled: ").toList ++ Nat.toDigits 10 inp.frame_count
        ++ (" (visual variance ").toList ++ renderQ inp.heuristics.visual_variance ++ [')'],
      [],
      ("Rolling transcript summary:").toList,
      inp.rolling,
      [],
      ("Transcript chunks:").toList]
     ++ inp.chunk_notes
     ++ [[],
      ("Visual frame descriptions (single-frame, limited context):").toList,
      visual_summary,
      [],
      ("Brain rot signals: ").toList ++ pyReprList inp.brain_rot,
      ("Learning value signals: ").toList ++ pyReprList inp.learning,
      ("21st century alignment: ").toList ++ pyReprList inp.twenty_first,
      ("AI slop signals: ").toList ++ pyReprList inp.ai_slop,
      pyStrip instructions,
      ("Construct the result so that each array field contains a few short, cautious bullet-like strings.").toList,
      ("If any rubric category cannot be assessed, note this in `uncertainties`.").toList])

theorem runsOfAux_sound (p : Char → Bool) :
    ∀ (s acc : List Char), (∀ c ∈ acc, p c = true) →
      ∀ w ∈ runsOfAux p s acc, w ≠ [] ∧ ∀ c ∈ w, p c = true := by
  intro s
  induction s with
  | nil =>
    intro acc hacc w hw
    simp only [runsOfAux] at hw
    by_cases h : acc.isEmpty
    · simp [h] at hw
    · simp [h] at hw
      subst hw
      refine ⟨?_, ?_⟩
      · simp only [ne_eq, List.reverse_eq_nil_iff]
        intro hnil
        rw [hnil] at h
        simp at h
      · intro c hc
        exact hacc c (List.mem_reverse.mp hc)
  | cons c cs ih =>
    intro acc hacc w hw
    simp only [runsOfAux] at hw
    by_cases hpc : p c
    · rw [if_pos hpc] at hw
      refine ih (c :: acc) ?_ w hw
      intro d hd
      rcases List.mem_cons.mp hd with h1 | h2
      · rw [h1]; exact hpc
      · exact hacc d h2
    · rw [if_neg hpc] at hw
      by_cases h : acc.isEmpty
      · rw [if_pos h] at hw
        exact ih [] (by simp) w hw
      · rw [if_neg h] at hw
        rcases List.mem_cons.mp hw with h1 | h2
        · subst h1
          refine ⟨?_, ?_⟩
          · simp only [ne_eq, List.reverse_eq_nil_iff]
            intro hnil
            rw [hnil] at h
            simp at h
          · intro d hd
            exact hacc d (List.mem_reverse.mp hd)
        · exact ih [] (by simp) w h2

theorem runsOfAux_all (p : Char → Bool) :
    ∀ (w acc : List Char), (∀ c ∈ w, p c = true) →
      runsOfAux p w acc =
        if acc.reverse ++ w = [] then [] else [acc.reverse ++ w] := by
  intro w
  induction w with
  | nil =>
    intro acc _
    simp only [runsOfAux, List.append_nil]
    by_cases h : acc.isEmpty
    · have : acc = [] := List.isEmpty_iff.mp h
      simp [h, this]
    · have : acc ≠ [] := by
        intro hnil; rw [hnil] at h; simp at h
      simp [h, this, List.reverse_eq_nil_iff]
  | cons c w2 ih =>
    intro acc hall
    have hpc : p c = true := hall c (List.mem_cons_self _ _)
    simp only [runsOfAux, if_pos hpc]
    rw [ih (c :: acc) (fun d hd => hall d (List.mem_cons_of_mem c hd))]
    simp [List.reverse_cons, List.append_assoc]

theorem runsOfAux_break (p : Char → Bool) :
    ∀ (w t acc : List Char) (b : Char), (∀ c ∈ w, p c = true) → p b = false →
      runsOfAux p (w ++ b :: t) acc =
        if acc.reverse ++ w = [] then runsOfAux p t []
        else (acc.reverse ++ w) :: runsOfAux p t [] := by
  intro w
  induction w with
  | nil =>
    intro t acc b _ hb
    simp only [List.nil_append, runsOfAux, hb, Bool.false_eq_true, if_false, List.append_nil]
    by_cases h : acc.isEmpty
    · have : acc = [] := List.isEmpty_iff.mp h
      simp [h, this]
    · have : acc ≠ [] := by
        intro hnil; rw [hnil] at h; simp at h
      simp [h, this, List.reverse_eq_nil_iff]
  | cons c w2 ih =>
    intro t acc b hall hb
    have hpc : p c = true := hall c (List.mem_cons_self _ _)
    simp only [List.cons_append, runsOfAux, if_pos hpc, List.append_eq]
    rw [ih t (c :: acc) b (fun d hd => hall d (List.mem_cons_of_mem c hd)) hb]
    simp [List.reverse_cons, List.append_assoc]

theorem splitWords_sound (s : List Char) :
    ∀ w ∈ splitWords s, w ≠ [] ∧ ∀ c ∈ w, isPyWs c = false := by
  intro w hw
  have := runsOfAux_sound (fun c => !(isPyWs c)) s [] (by simp) w hw
  refine ⟨this.1, ?_⟩
  intro c hc
  have h2 := this.2 c hc
  simpa using h2

theorem splitWords_joinSpace :
    ∀ (ws : List (List Char)),
      (∀ w ∈ ws, w ≠ [] ∧ ∀ c ∈ w, isPyWs c = false) →
      splitWords (joinSpace ws) = ws := by
  intro ws
  induction ws with
  | nil => intro _; rfl
  | cons w ws2 ih =>
    intro hall
    match ws2 with
    | [] =>
      have hw := hall w (List.mem_cons_self _ _)
      show runsOfAux (fun c => !(isPyWs c)) w [] = [w]
      rw [runsOfAux_all (fun c => !(isPyWs c)) w [] (by intro c hc; simp [hw.2 c hc])]
      simp [hw.1]
    | v :: ws3 =>
      have hw := hall w (List.mem_cons_self _ _)
      have hstep : joinSpace (w :: v :: ws3) = w ++ ' ' :: joinSpace (v :: ws3) := rfl
      rw [hstep]
      show runsOfAux (fun c => !(isPyWs c)) (w ++ ' ' :: joinSpace (v :: ws3)) [] = w :: v :: ws3
      rw [runsOfAux_break (fun c => !(isPyWs c)) w (joinSpace (v :: ws3)) [] ' '
        (by intro c hc; simp [hw.2 c hc]) (by simp [isPyWs])]
      simp only [List.reverse_nil, List.nil_append, hw.1, if_false]
      rw [show runsOfAux (fun c => !(isPyWs c)) (joinSpace (v :: ws3)) [] = splitWords (joinSpace (v :: ws3)) from rfl]
      rw [ih (fun u hu => hall u (List.mem_cons_of_mem w hu))]

theorem chunkListF_flatten (w : ℕ) (hw : 0 < w) :
    ∀ (fuel : ℕ) (xs : List (List Char)), xs.length ≤ fuel →
      (chunkListF w fuel xs).flatten = xs := by
  intro fuel
  induction fuel with
  | zero =>
    intro xs h
    have : xs = [] := List.length_eq_zero.mp (Nat.le_zero.mp h)
    subst this
    rfl
  | succ n ih =>
    intro xs h
    match xs with
    | [] => rfl
    | x :: l =>
      simp only [chunkListF, List.flatten_cons]
      rw [ih ((x :: l).drop w) ?_]
      · exact List.take_append_drop w (x :: l)
      · have hd : ((x :: l).drop w).length = (x :: l).length - w := List.length_drop w (x :: l)
        simp only [List.length_cons] at h hd
        omega

theorem chunkListF_length (w : ℕ) (hw : 0 < w) :
    ∀ (fuel : ℕ) (xs : List (List Char)), xs.length ≤ fuel →
      (chunkListF w fuel xs).length = (xs.length + w - 1) / w := by
  intro fuel
  induction fuel with
  | zero =>
    intro xs h
    have : xs = [] := List.length_eq_zero.mp (Nat.le_zero.mp h)
    subst this
    have hz := Nat.div_eq_of_lt (show w - 1 < w by omega)
    simp [chunkListF, hz]
  | succ n ih =>
    intro xs h
    match xs with
    | [] =>
      have hz := Nat.div_eq_of_lt (show w - 1 < w by omega)
      simp [chunkListF, hz]
    | x :: l =>
      simp only [chunkListF, List.length_cons]
      rw [ih ((x :: l).drop w) ?_]
      · have hd : ((x :: l).drop w).length = (x :: l).length - w := List.length_drop w (x :: l)
        rw [hd]
        simp only [List.length_cons]
        rcases le_or_lt (l.length + 1) w with hle | hlt
        · have h1 : l.length + 1 - w = 0 := by omega
          rw [h1]
          have hz := Nat.div_eq_of_lt (show 0 + w - 1 < w by omega)
          rw [hz]
          have h2 : (l.length + 1 + w - 1) / w = 1 := by
            rw [Nat.div_eq_sub_div hw (by omega)]
            rw [Nat.div_eq_of_lt (by omega : l.length + 1 + w - 1 - w < w)]
          omega
        · have h1 : l.length + 1 - w + w - 1 = l.length := by omega
          rw [h1]
          have h2 : l.length + 1 + w - 1 = l.length + w := by omega
          rw [h2, Nat.add_div_right _ hw]
      · have hd : ((x :: l).drop w).length = (x :: l).length - w := List.length_drop w (x :: l)
        simp only [List.length_cons] at h hd
        omega

theorem chunkListF_mem (w : ℕ) (hw : 0 < w) :
    ∀ (fuel : ℕ) (xs : List (List Char)), ∀ g ∈ chunkListF w fuel xs,
      g ≠ [] ∧ ∀ a ∈ g, a ∈ xs := by
  intro fuel
  induction fuel with
  | zero => intro xs g hg; simp [chunkListF] at hg
  | succ n ih =>
    intro xs g hg
    match xs with
    | [] => simp [chunkListF] at hg
    | x :: l =>
      simp only [chunkListF] at hg
      rcases List.mem_cons.mp hg with h1 | h2
      · subst h1
        refine ⟨?_, ?_⟩
        · apply List.ne_nil_of_length_pos
          rw [List.length_take]
          simp only [List.length_cons]
          omega
        · intro a ha
          exact List.take_subset w (x :: l) ha
      · have := ih ((x :: l).drop w) g h2
        exact ⟨this.1, fun a ha => List.drop_subset w (x :: l) (this.2 a ha)⟩

/-- C3: chunk_transcript with a positive window size is a
length-preserving ordered partition: re-splitting every chunk into words
and concatenating recovers the transcript word sequence, the chunk count
is the ceiling of word count over window size, and the empty transcript
gives the empty chunk sequence. -/
theorem chunk_transcript_partition (T : List Char) (w : ℕ) (hw : 0 < w) :
    ((chunk_transcript T w).map splitWords).flatten = splitWords T ∧
    (chunk_transcript T w).length = ((splitWords T).length + w - 1) / w ∧
    chunk_transcript [] w = [] := by
  have hempty : chunk_transcript [] w = [] := rfl
  by_cases hemp : (splitWords T).isEmpty
  · have hnil : splitWords T = [] := List.isEmpty_iff.mp hemp
    have hz := Nat.div_eq_of_lt (show 0 + w - 1 < w by omega)
    refine ⟨?_, ?_, hempty⟩
    · simp [chunk_transcript, hemp, hnil]
    · simp only [chunk_transcript, hemp, if_pos, hnil]
      simpa using hz.symm
  · have hchunks : chunk_transcript T w
        = (chunkListF w (splitWords T).length (splitWords T)).map joinSpace := by
      simp [chunk_transcript, hemp]
    have hsound := splitWords_sound T
    have hmem := chunkListF_mem w hw (splitWords T).length (splitWords T)
    have hmapeq : ∀ g ∈ chunkListF w (splitWords T).length (splitWords T),
        splitWords (joinSpace g) = g := by
      intro g hg
      exact splitWords_joinSpace g (fun u hu => hsound u ((hmem g hg).2 u hu))
    refine ⟨?_, ?_, hempty⟩
    · rw [hchunks, List.map_map]
      have : (chunkListF w (splitWords T).length (splitWords T)).map
            (splitWords ∘ joinSpace)
          = (chunkListF w (splitWords T).length (splitWords T)).map id := by
        apply List.map_congr_left
        intro g hg
        exact hmapeq g hg
      rw [this, List.map_id]
      exact chunkListF_flatten w hw (splitWords T).length (splitWords T) le_rfl
    · rw [hchunks, List.length_map]
      exact chunkListF_length w hw (splitWords T).length (splitWords T) le_rfl

/-- Witness for chunk_transcript_partition at a concrete five-word
transcript and window size 2. -/
theorem chunk_transcript_partition_witness :
    ((chunk_transcript ("alpha beta gamma delta epsilon".toList) 2).map splitWords).flatten
        = splitWords ("alpha beta gamma delta epsilon".toList) ∧
    (chunk_transcript ("alpha beta gamma delta epsilon".toList) 2).length
        = ((splitWords ("alpha beta gamma delta epsilon".toList)).length + 2 - 1) / 2 ∧
    chunk_transcript [] 2 = [] :=
  chunk_transcript_partition ("alpha beta gamma delta epsilon".toList) 2 (by decide)

/-- C4: the repetition ratio is within [0,1], equals
max(0, 1 - unique/total) over the lowercased word tokens when there are
any, and is 0 on the empty transcript. -/
theorem word_repetition_ratio_bounds (text : List Char) :
    0 ≤ word_repetition_ratio_val text ∧
    word_repetition_ratio_val text ≤ 1 ∧
    ((findallWords (text.map Char.toLower)).isEmpty = false →
      word_repetition_ratio_val text
        = max 0 (1 - ((findallWords (text.map Char.toLower)).dedup.length : ℚ)
              / ((findallWords (text.map Char.toLower)).length : ℚ))) ∧
    word_repetition_ratio_val [] = 0 := by
  have hlast : word_repetition_ratio_val [] = 0 := rfl
  by_cases h : (findallWords (text.map Char.toLower)).isEmpty
  · have h0 : word_repetition_ratio_val text = 0 := by
      simp [word_repetition_ratio_val, h]
    refine ⟨by rw [h0], by rw [h0]; norm_num, ?_, hlast⟩
    intro hc
    rw [h] at hc
    exact absurd hc (by simp)
  · have hb : (findallWords (text.map Char.toLower)).isEmpty = false :=
      Bool.not_eq_true _ ▸ (by simpa using h)
    have heq : word_repetition_ratio_val text
        = max 0 (1 - ((findallWords (text.map Char.toLower)).dedup.length : ℚ)
              / ((findallWords (text.map Char.toLower)).length : ℚ)) := by
      simp [word_repetition_ratio_val, hb]
    refine ⟨?_, ?_, fun _ => heq, hlast⟩
    · rw [heq]; exact le_max_left 0 _
    · rw [heq]
      apply max_le
      · norm_num
      · have hnn : (0:ℚ) ≤ ((findallWords (text.map Char.toLower)).dedup.length : ℚ)
              / ((findallWords (text.map Char.toLower)).length : ℚ) :=
          div_nonneg (Nat.cast_nonneg _) (Nat.cast_nonneg _)
        linarith

/-- Witness for word_repetition_ratio_bounds at a concrete transcript
with a repeated word. -/
theorem word_repetition_ratio_bounds_witness :
    0 ≤ word_repetition_ratio_val ("go go stop".toList) ∧
    word_repetition_ratio_val ("go go stop".toList) ≤ 1 ∧
    word_repetition_ratio_val ("go go stop".toList)
      = max 0 (1 - ((findallWords (("go go stop".toList).map Char.toLower)).dedup.length : ℚ)
            / ((findallWords (("go go stop".toList).map Char.toLower)).length : ℚ)) ∧
    word_repetition_ratio_val [] = 0 := by
  have h := word_repetition_ratio_bounds ("go go stop".toList)
  exact ⟨h.1, h.2.1, h.2.2.1 (by decide), h.2.2.2⟩

/-- C5: both rates are 0 for non-positive durations without any error,
and equal word_count / duration for positive durations. -/
theorem speed_density_guard (wc : ℕ) (d : ℚ) :
    (d ≤ 0 → speaking_speed wc d = 0 ∧ transcript_density wc d = 0) ∧
    (0 < d → speaking_speed wc d = (wc : ℚ) / d ∧ transcript_density wc d = (wc : ℚ) / d) := by
  constructor
  · intro h
    simp [speaking_speed, transcript_density, h]
  · intro h
    simp [speaking_speed, transcript_density, not_le.mpr h]

/-- Witness for speed_density_guard at duration -1 and duration 2. -/
theorem speed_density_guard_witness :
    (speaking_speed 3 (-1) = 0 ∧ transcript_density 3 (-1) = 0) ∧
    (speaking_speed 3 2 = (3 : ℚ) / 2 ∧ transcript_density 3 2 = (3 : ℚ) / 2) :=
  ⟨(speed_density_guard 3 (-1)).1 (neg_nonpos.mpr zero_le_one),
   (speed_density_guard 3 2).2 two_pos⟩

theorem absDiffs_const_sum (c : ℚ) : ∀ L : List ℚ, (∀ x ∈ L, x = c) → (absDiffs L).sum = 0 := by
  intro L
  induction L with
  | nil => intro _; simp [absDiffs]
  | cons a L2 ih =>
    intro h
    match L2, ih with
    | [], _ => simp [absDiffs]
    | b :: rest, ih =>
      have ha : a = c := h a (by simp)
      have hb : b = c := h b (by simp)
      have hsum := ih (fun x hx => h x (List.mem_cons_of_mem a hx))
      simp only [absDiffs, List.sum_cons]
      rw [hsum, ha, hb]
      simp

/-- C6: compute_visual_variance is 0 when fewer than two frames are
readable, ignores an unreadable frame wherever it occurs, is 0 when all
readable frames have the same mean luminance, and otherwise is the mean
of absolute differences of consecutive readable means. -/
theorem compute_visual_variance_spec (frames l r : List Frame) (c : ℚ) :
    ((frameAverages frames).length < 2 → compute_visual_variance frames = 0) ∧
    compute_visual_variance (l ++ none :: r) = compute_visual_variance (l ++ r) ∧
    ((∀ x ∈ frameAverages frames, x = c) → compute_visual_variance frames = 0) ∧
    (2 ≤ (frameAverages frames).length →
      compute_visual_variance frames
        = (absDiffs (frameAverages frames)).sum / ((absDiffs (frameAverages frames)).length : ℚ)) := by
  have hcore : ∀ fs : List Frame, compute_visual_variance fs
      = if (frameAverages fs).length < 2 then 0
        else (absDiffs (frameAverages fs)).sum / ((absDiffs (frameAverages fs)).length : ℚ) := by
    intro fs
    simp only [compute_visual_variance]
    by_cases h2 : fs.length < 2
    · have hle : (frameAverages fs).length ≤ fs.length := List.length_filterMap_le _ _
      rw [if_pos h2, if_pos (by omega)]
    · rw [if_neg h2]
  have havg : frameAverages (l ++ none :: r) = frameAverages (l ++ r) := by
    simp only [frameAverages, List.filterMap_append, List.filterMap_cons]
  refine ⟨?_, ?_, ?_, ?_⟩
  · intro hlen
    rw [hcore frames, if_pos hlen]
  · rw [hcore, hcore, havg]
  · intro hc
    rw [hcore frames]
    by_cases hlen : (frameAverages frames).length < 2
    · rw [if_pos hlen]
    · rw [if_neg hlen, absDiffs_const_sum c (frameAverages frames) hc, zero_div]
  · intro hge
    rw [hcore frames, if_neg (not_lt.mpr hge)]

/-- Witness for compute_visual_variance_spec: one readable frame, an
unreadable frame amid two readable ones, and five frames of identical
mean luminance. -/
theorem compute_visual_variance_spec_witness :
    ((frameAverages [some [3]]).length < 2 → compute_visual_variance [some [3]] = 0) ∧
    compute_visual_variance ([some [5]] ++ none :: [some [9]])
      = compute_visual_variance ([some [5]] ++ [some [9]]) ∧
    compute_visual_variance [some [7], some [7], some [7], some [7], some [7]] = 0 := by
  have h1 := compute_visual_variance_spec [some [3]] [some [5]] [some [9]] 7
  have h2 := compute_visual_variance_spec [some [7], some [7], some [7], some [7], some [7]]
    [some [5]] [some [9]] 7
  exact ⟨h1.1, h1.2.1, h2.2.2.1 (by simp [frameAverages])⟩

/-- C7: speaking_speed and transcript_density are the same function, so
the two corresponding bundle fields of aggregate_heuristics coincide. -/
theorem speed_density_identical (wc : ℕ) (d : ℚ) (t : List Char) (dur : ℚ) (fr : List Frame) :
    speaking_speed wc d = transcript_density wc d ∧
    (aggregate_heuristics t dur fr).speaking_speed_wps
      = (aggregate_heuristics t dur fr).transcript_density_wps :=
  ⟨rfl, rfl⟩

/-- C8: the rolling summary is the newline join of at most the last four
chunk notes in order (all of them when there are at most four), and is
the fixed placeholder when there are none. -/
theorem rolling_summary_spec (notes : List (List Char)) :
    rolling_summary [] = ("No transcript available").toList ∧
    (notes ≠ [] →
      rolling_summary notes = joinNl (notes.drop (notes.length - 4)) ∧
      notes.drop (notes.length - 4) <:+ notes ∧
      (notes.drop (notes.length - 4)).length ≤ 4 ∧
      (notes.length ≤ 4 → notes.drop (notes.length - 4) = notes)) := by
  refine ⟨rfl, fun hne => ⟨?_, ?_, ?_, ?_⟩⟩
  · have hb : notes.isEmpty = false := by
      cases notes with
      | nil => exact absurd rfl hne
      | cons a t => rfl
    simp [rolling_summary, hb]
  · exact List.drop_suffix _ _
  · rw [List.length_drop]; omega
  · intro h4
    have hz : notes.length - 4 = 0 := by omega
    rw [hz, List.drop_zero]

/-- Witness for rolling_summary_spec at five notes and at two notes. -/
theorem rolling_summary_spec_witness :
    rolling_summary [] = ("No transcript available").toList ∧
    (rolling_summary [['a'], ['b'], ['c'], ['d'], ['e']]
      = joinNl ([['a'], ['b'], ['c'], ['d'], ['e']].drop ([['a'], ['b'], ['c'], ['d'], ['e']].length - 4)) ∧
     ([['a'], ['b'], ['c'], ['d'], ['e']].drop ([['a'], ['b'], ['c'], ['d'], ['e']].length - 4)).length ≤ 4) ∧
    [['a'], ['b']].drop ([['a'], ['b']].length - 4) = [['a'], ['b']] := by
  have h5 := (rolling_summary_spec [['a'], ['b'], ['c'], ['d'], ['e']]).2 (by simp)
  have h2 := (rolling_summary_spec [['a'], ['b']]).2 (by simp)
  exact ⟨(rolling_summary_spec []).1, ⟨h5.1, h5.2.2.1⟩, h2.2.2.2 (by simp)⟩

theorem findIdxQ_none (p : Char → Bool) :
    ∀ s : List Char, (∀ c ∈ s, p c = false) → ∀ i : ℕ, s.findIdx? p i = none := by
  intro s
  induction s with
  | nil => intro _ _; rfl
  | cons c cs ih =>
    intro h i
    rw [List.findIdx?_cons, h c (List.mem_cons_self _ _)]
    simp only [Bool.false_eq_true, if_false]
    exact ih (fun d hd => h d (List.mem_cons_of_mem c hd)) (i + 1)

/-- C1: extract_json decodes exactly the region from the first opening
brace to the last closing brace; with no braces in the input it fails
with the not-found error kind, which is distinct from the decode error
kind; and on the concrete noisy input it returns the embedded record. -/
theorem extract_json_first_to_last (s sub : List Char) :
    (extract_region s = some sub → extract_json s = decodeResult sub) ∧
    ((∀ c ∈ s, c ≠ '\x7b' ∧ c ≠ '\x7d') → extract_json s = Except.error ParseError.notFound) ∧
    ParseError.notFound ≠ ParseError.decodeError ∧
    extract_json ("noise \x7b\"A\": [\"x\"]\x7d trailing".toList)
      = Except.ok (JValue.obj [(['A'], JValue.arr [JValue.str ['x']])]) := by
  refine ⟨?_, ?_, by decide, by rfl⟩
  · intro h
    simp [extract_json, h]
  · intro h
    have hfind : s.findIdx? (fun d => d = '\x7b') = none := by
      apply findIdxQ_none (fun d => d = '\x7b') s ?_ 0
      intro c hc
      simp [(h c hc).1]
    simp [extract_json, extract_region, hfind]

/-- Witness for extract_json_first_to_last: a concrete region extraction
and a concrete brace-free input. -/
theorem extract_json_first_to_last_witness :
    extract_json ("pre \x7bmid\x7d post".toList) = decodeResult ("\x7bmid\x7d".toList) ∧
    extract_json ("no special marks".toList) = Except.error ParseError.notFound ∧
    ParseError.notFound ≠ ParseError.decodeError ∧
    extract_json ("noise \x7b\"A\": [\"x\"]\x7d trailing".toList)
      = Except.ok (JValue.obj [(['A'], JValue.arr [JValue.str ['x']])]) := by
  have ha := extract_json_first_to_last ("pre \x7bmid\x7d post".toList) ("\x7bmid\x7d".toList)
  have hb := extract_json_first_to_last ("no special marks".toList) ("\x7bmid\x7d".toList)
  exact ⟨ha.1 (by rfl), hb.2.1 (by decide), ha.2.2.1, ha.2.2.2⟩

/-- C2: whenever a brace-to-brace region is found but fails to decode,
extract_json fails with the decode error kind, distinct from the
not-found kind. -/
theorem extract_json_error_kinds (s sub : List Char)
    (h1 : extract_region s = some sub) (h2 : json_loads sub = none) :
    extract_json s = Except.error ParseError.decodeError ∧
    ParseError.decodeError ≠ ParseError.notFound := by
  refine ⟨?_, by decide⟩
  simp [extract_json, h1, decodeResult, h2]

/-- Witness for extract_json_error_kinds at a found but malformed
region. -/
theorem extract_json_error_kinds_witness :
    extract_json ("x\x7b,\x7d".toList) = Except.error ParseError.decodeError ∧
    ParseError.decodeError ≠ ParseError.notFound :=
  extract_json_error_kinds ("x\x7b,\x7d".toList) ("\x7b,\x7d".toList) (by rfl) (by rfl)

/-- C9: prompt assembly is a pure deterministic function: two calls on
equal inputs produce byte-identical payloads. -/
theorem assemble_prompt_deterministic (a b : PromptInputs) (h : a = b) :
    assemble_prompt a = assemble_prompt b := by
  rw [h]

/-- Witness for assemble_prompt_deterministic at a concrete input. -/
theorem assemble_prompt_deterministic_witness :
    assemble_prompt
        (PromptInputs.mk ("en".toList) 30 (aggregate_heuristics ("hi there".toList) 30 [some [4]])
          1 ("summary".toList) [("note one".toList)] [("a frame".toList)]
          BRAIN_ROT_SIGNALS LEARNING_VALUE_SIGNALS TWENTY_FIRST_CENTURY AI_SLOP_SIGNALS)
      = assemble_prompt
        (PromptInputs.mk ("en".toList) 30 (aggregate_heuristics ("hi there".toList) 30 [some [4]])
          1 ("summary".toList) [("note one".toList)] [("a frame".toList)]
          BRAIN_ROT_SIGNALS LEARNING_VALUE_SIGNALS TWENTY_FIRST_CENTURY AI_SLOP_SIGNALS) :=
  assemble_prompt_deterministic _ _ rfl

/-- C10: greedy first-to-last-brace capture overreaches: this input
contains a complete valid JSON object followed by commentary with a
closing brace, and extract_json fails with a decode error instead of
returning the embedded object. -/
theorem extract_json_greedy_overcapture :
    ("\x7b\"A\": \"v\"\x7d tail\x7d".toList)
      = ("\x7b\"A\": \"v\"\x7d".toList) ++ (" tail\x7d".toList) ∧
    json_loads ("\x7b\"A\": \"v\"\x7d".toList)
      = some (JValue.obj [(['A'], JValue.str ['v'])]) ∧
    extract_json ("\x7b\"A\": \"v\"\x7d tail\x7d".toList)
      = Except.error ParseError.decodeError :=
  ⟨rfl, rfl, rfl⟩
